import Mathlib

/-!
Verification of the Metropolis-Hastings sampler from the 4M24 course
notebooks (Lecture 5 / Lecture 2).  The Python source being embedded is:

    def MH(initial, target_dist, proposal_dist, n):
        samples = []
        x = initial
        for _ in range(n):
            y = x + proposal_dist.rvs()
            u = uniform.rvs()
            a = min(target_dist.pdf(y)/target_dist.pdf(x), 1)
            if u <= a:
                samples.append(y)
                x = y
            else:
                samples.append(x)
        return samples

The second notebook's variant draws y = norm.rvs(loc=x, scale=proposal_std),
which is the same y = x + delta for a proposal offset delta; both variants
share the acceptance and append logic verbatim.

Modelling choices:
  * Density values and random draws are exact rationals; the caller-supplied
    random source is a pair of streams (proposal offsets and uniform draws)
    indexed by iteration, so determinism and mock-driven tests are statable.
  * The iteration count keeps its Python type: an integer n, with range(n)
    empty when n is not positive, so Int.toNat n iterations run.  The source
    performs no validation of n or of the proposal scale.
  * The one place where IEEE-754 float semantics is observable is the
    expression min(pdf(y)/pdf(x), 1) when pdf(x) is float 0.0 (numpy float64
    division raises no exception):
      - pdf(x) = 0 and pdf(y) > 0: the quotient is +infinity, Python's
        min(+inf, 1) = 1, so the test u <= 1 decides acceptance;
      - pdf(x) = 0 and pdf(y) = 0: the quotient is NaN, min(NaN, 1) = NaN
        (the comparison 1 < NaN is false, so min keeps its first argument),
        and u <= NaN is false for every u, so the proposal is never accepted;
      - pdf(x) = 0 and pdf(y) < 0 (impossible for a density, included for
        totality): the quotient is -infinity and u <= -infinity is false.
    mhAccept encodes exactly these cases; away from pdf(x) = 0 it is the
    plain rational comparison u <= min(pdf(y)/pdf(x), 1).
-/

/-- The acceptance test of one MH iteration: the Boolean value of the Python
test u <= min(target_dist.pdf(y)/target_dist.pdf(x), 1), with px standing
for pdf(x), py for pdf(y) and u for the uniform draw.  The px = 0 branches
encode the IEEE float behaviour of the source's division described in the
header comment. -/
def mhAccept (px py u : ℚ) : Bool :=
  if px = 0 then
    if 0 < py then decide (u ≤ 1) else false
  else
    decide (u ≤ min (py / px) 1)

/-- One iteration of the MH loop body: the candidate is y = x + delta; on
acceptance the appended sample and the new chain state are both y, on
rejection both are the unchanged x (the source appends y and sets x = y in
the accept branch and appends x in the reject branch, so the appended value
always equals the post-decision state). -/
def mhStep (pi : ℚ → ℚ) (x δ u : ℚ) : ℚ :=
  let y := x + δ
  if mhAccept (pi x) (pi (x + δ)) u then y else x

/-- The MH accumulation loop over an explicit list of per-iteration draws
(one proposal offset and one uniform draw per iteration), returning the list
of appended samples. -/
def mhLoop (pi : ℚ → ℚ) : ℚ → List (ℚ × ℚ) → List ℚ
  | _, [] => []
  | x, (δ, u) :: rest =>
    mhStep pi x δ u :: mhLoop pi (mhStep pi x δ u) rest

/-- The MH sampler.  Arguments follow the source: initial state, target
density, the random source (a stream of proposal offsets and a stream of
uniform draws, replacing proposal_dist.rvs() and uniform.rvs()), and the
iteration count n, an integer consumed as range(n). -/
def MH (initial : ℚ) (pi : ℚ → ℚ) (δs us : ℕ → ℚ) (n : ℤ) : List ℚ :=
  mhLoop pi initial ((List.range n.toNat).map fun i => (δs i, us i))

/-- One iteration of the MH loop body with a fallible target density,
mirroring Python exception propagation: the source evaluates pdf(y) first,
then pdf(x), and an exception raised by either aborts the iteration. -/
def mhStepE {ε : Type} (pi : ℚ → Except ε ℚ) (x δ u : ℚ) : Except ε ℚ :=
  match pi (x + δ) with
  | Except.error e => Except.error e
  | Except.ok py =>
    match pi x with
    | Except.error e => Except.error e
    | Except.ok px => Except.ok (if mhAccept px py u then x + δ else x)

/-- The MH accumulation loop with a fallible target density: an exception
raised in any iteration aborts the whole run, and the locally accumulated
samples list is discarded (the caller observes only the exception). -/
def mhLoopE {ε : Type} (pi : ℚ → Except ε ℚ) : ℚ → List (ℚ × ℚ) → Except ε (List ℚ)
  | _, [] => Except.ok []
  | x, (δ, u) :: rest =>
    match mhStepE pi x δ u with
    | Except.error e => Except.error e
    | Except.ok x1 =>
      match mhLoopE pi x1 rest with
      | Except.error e => Except.error e
      | Except.ok tl => Except.ok (x1 :: tl)

/-- The MH sampler with a fallible target density. -/
def MHE {ε : Type} (initial : ℚ) (pi : ℚ → Except ε ℚ) (δs us : ℕ → ℚ) (n : ℤ) :
    Except ε (List ℚ) :=
  mhLoopE pi initial ((List.range n.toNat).map fun i => (δs i, us i))

/-- Cumulative sums x0 + d1, x0 + d1 + d2, ... of a list of offsets, used to
state the always-accept property of a constant positive target density. -/
def cumsum (x : ℚ) : List ℚ → List ℚ
  | [] => []
  | d :: ds => (x + d) :: cumsum (x + d) ds

example : mhAccept 2 1 (1/2) = true := by norm_num [mhAccept]
example : mhAccept 2 1 (3/4) = false := by norm_num [mhAccept]
example : mhAccept 0 1 1 = true := by norm_num [mhAccept]
example : mhAccept 0 0 0 = false := by norm_num [mhAccept]
example : MH 0 (fun _ => 1) (fun _ => 1) (fun _ => 0) 3 = [1, 2, 3] := by
  norm_num [MH, mhLoop, mhStep, mhAccept, List.range_succ]
example : MH 0 (fun _ => 1) (fun _ => 1) (fun _ => 0) (-2) = [] := by
  norm_num [MH, mhLoop]

/-- The sample appended in an iteration always equals the post-decision chain
state, so mhLoop over any draw list produces one sample per draw. -/
lemma mhLoop_length (pi : ℚ → ℚ) :
    ∀ (pairs : List (ℚ × ℚ)) (x : ℚ), (mhLoop pi x pairs).length = pairs.length := by
  intro pairs
  induction pairs with
  | nil => intro x; rfl
  | cons p rest ih =>
    intro x
    obtain ⟨δ, u⟩ := p
    simp [mhLoop, ih]

/-- C1: in every iteration of the MH sampler, with current state x, candidate
y = x + delta and uniform draw u, the acceptance ratio is
a = min(1, pi(y)/pi(x)) (stated for pi(x) > 0, where the source's division is
ordinary division), the candidate is accepted, i.e. the state becomes y, if
and only if u <= a, and otherwise the state is unchanged; the appended sample
and the state the loop continues from are that post-decision state. -/
theorem mh_iteration (pi : ℚ → ℚ) (x δ u : ℚ) (rest : List (ℚ × ℚ))
    (hx : 0 < pi x) :
    mhLoop pi x ((δ, u) :: rest) =
      (if u ≤ min (pi (x + δ) / pi x) 1 then x + δ else x) ::
        mhLoop pi (if u ≤ min (pi (x + δ) / pi x) 1 then x + δ else x) rest := by
  have hne : pi x ≠ 0 := ne_of_gt hx
  simp only [mhLoop, mhStep, mhAccept, if_neg hne, decide_eq_true_eq]

/-- Witness for C1 at pi = 1, x = 0, delta = 1, u = 1, rest = []. -/
theorem mh_iteration_witness :
    mhLoop (fun _ => (1:ℚ)) 0 [(1, 1)] =
      (if (1:ℚ) ≤ min ((fun _ => (1:ℚ)) (0 + 1) / (fun _ => (1:ℚ)) 0) 1 then 0 + 1 else 0) ::
        mhLoop (fun _ => (1:ℚ))
          (if (1:ℚ) ≤ min ((fun _ => (1:ℚ)) (0 + 1) / (fun _ => (1:ℚ)) 0) 1 then 0 + 1 else 0)
          [] :=
  mh_iteration (fun _ => (1:ℚ)) 0 1 1 [] (by norm_num)

/-- C2: for every iteration count n >= 0, every initial state, every target
density and every sequence of random draws, the sequence returned by MH has
exactly n elements, and for n = 0 it is empty. -/
theorem mh_length (x0 : ℚ) (pi : ℚ → ℚ) (δs us : ℕ → ℚ) (n : ℤ) (hn : 0 ≤ n) :
    ((MH x0 pi δs us n).length : ℤ) = n ∧ (n = 0 → MH x0 pi δs us n = []) := by
  constructor
  · unfold MH
    rw [mhLoop_length]
    simp [Int.toNat_of_nonneg hn]
  · rintro rfl
    rfl

/-- Witness for C2 at n = 2. -/
theorem mh_length_witness :
    ((MH 0 (fun _ => 1) (fun _ => 0) (fun _ => 0) 2).length : ℤ) = 2 ∧
      ((2:ℤ) = 0 → MH 0 (fun _ => 1) (fun _ => 0) (fun _ => 0) 2 = []) :=
  mh_length 0 (fun _ => 1) (fun _ => 0) (fun _ => 0) 2 (by norm_num)

/-- C4 counterexample: called with iteration count n = -1, MH returns the
empty sequence instead of failing with an error; the source contains no
validation of its inputs, and range(-1) simply yields no iterations. -/
theorem mh_no_validation_cex :
    MH 1 (fun _ => 1) (fun _ => 0) (fun _ => 0) (-1) = [] := by
  norm_num [MH, mhLoop]

/-- C4 amended: MH performs no input validation at all; for every n < 0 the
loop body never executes and MH returns the empty sequence rather than an
error, and the proposal scale is consumed only inside the caller-supplied
proposal distribution, never examined by MH. -/
theorem mh_negative_n_returns_empty (x0 : ℚ) (pi : ℚ → ℚ) (δs us : ℕ → ℚ)
    (n : ℤ) (hn : n < 0) :
    MH x0 pi δs us n = [] := by
  unfold MH
  rw [Int.toNat_of_nonpos hn.le]
  rfl

/-- Witness for the amended C4 at n = -1. -/
theorem mh_negative_n_returns_empty_witness :
    MH 0 (fun _ => 1) (fun _ => 0) (fun _ => 0) (-1) = [] :=
  mh_negative_n_returns_empty 0 (fun _ => 1) (fun _ => 0) (fun _ => 0) (-1) (by norm_num)

/-- C6 counterexample: the starting value x0 can occur in the returned
sequence.  With x0 = 0, target density 1 at 0 and 1/2 elsewhere, proposal
offset 1 and uniform draw 1, the first iteration rejects (1 > 1/2) and
appends the prior state x0 = 0, so 0 is an element of the output. -/
theorem mh_x0_in_output_cex :
    (0:ℚ) ∈ MH 0 (fun t => if t = 0 then 1 else (1:ℚ)/2) (fun _ => 1) (fun _ => 1) 1 := by
  norm_num [MH, mhLoop, mhStep, mhAccept, List.range_succ]

/-- C6 amended: for n >= 1 the returned sequence excludes x0 positionally,
not by value: its first element is the state after the first iteration's
accept/reject decision (mhStep applied to x0 and the first draws), rather
than an initial copy of x0; the value x0 can still reappear in the output,
for example whenever an iteration rejects. -/
theorem mh_first_element (x0 : ℚ) (pi : ℚ → ℚ) (δs us : ℕ → ℚ) (n : ℤ)
    (hn : 1 ≤ n) :
    (MH x0 pi δs us n).head? = some (mhStep pi x0 (δs 0) (us 0)) := by
  unfold MH
  obtain ⟨k, hk⟩ : ∃ k, n.toNat = k + 1 := ⟨n.toNat - 1, by omega⟩
  rw [hk, List.range_succ_eq_map]
  simp [mhLoop]

/-- Witness for the amended C6 at n = 1. -/
theorem mh_first_element_witness :
    (MH 0 (fun _ => 1) (fun _ => 1) (fun _ => 1) 1).head? =
      some (mhStep (fun _ => 1) 0 ((fun _ => (1:ℚ)) 0) ((fun _ => (1:ℚ)) 0)) :=
  mh_first_element 0 (fun _ => 1) (fun _ => 1) (fun _ => 1) 1 (by norm_num)

/-- C8: on a rejected iteration (pi(x) > 0 and u > min(1, pi(y)/pi(x))), the
element appended to the output sequence is exactly the chain state x from
before the iteration, and the loop continues from that same unchanged x. -/
theorem mh_reject_appends_prior (pi : ℚ → ℚ) (x δ u : ℚ) (rest : List (ℚ × ℚ))
    (hx : 0 < pi x) (hrej : ¬ u ≤ min (pi (x + δ) / pi x) 1) :
    mhLoop pi x ((δ, u) :: rest) = x :: mhLoop pi x rest := by
  have hne : pi x ≠ 0 := ne_of_gt hx
  have hacc : mhAccept (pi x) (pi (x + δ)) u = false := by
    simp [mhAccept, hne, hrej]
  simp [mhLoop, mhStep, hacc]

/-- Witness for C8: u = 1 with density ratio 1/2 rejects and re-appends the
prior state 0. -/
theorem mh_reject_appends_prior_witness :
    mhLoop (fun t => if t = 0 then 1 else (1:ℚ)/2) 0 [(1, 1)] =
      0 :: mhLoop (fun t => if t = 0 then 1 else (1:ℚ)/2) 0 [] :=
  mh_reject_appends_prior (fun t => if t = 0 then 1 else (1:ℚ)/2) 0 1 1 []
    (by norm_num) (by norm_num)

/-- C10: because the acceptance test is the non-strict comparison u <= a, a
uniform draw of u = 0 accepts every proposal whenever pi(x) > 0 and the
proposed density is non-negative; in particular, when pi(y) = 0 the ratio is
a = min(0/pi(x), 1) = 0 and 0 <= 0 holds, so the chain moves into the
zero-density state y. -/
theorem mh_u_zero_accepts (pi : ℚ → ℚ) (x δ : ℚ)
    (hx : 0 < pi x) (hy : 0 ≤ pi (x + δ)) :
    mhStep pi x δ 0 = x + δ := by
  have hne : pi x ≠ 0 := ne_of_gt hx
  have h0 : (0:ℚ) ≤ min (pi (x + δ) / pi x) 1 :=
    le_min (div_nonneg hy hx.le) zero_le_one
  simp [mhStep, mhAccept, hne, h0]

/-- Witness for C10: density 1 at 0 and 0 elsewhere, u = 0 moves the chain
from 0 into the zero-density state 1. -/
theorem mh_u_zero_accepts_witness :
    mhStep (fun t => if t = 0 then 1 else 0) 0 1 0 = 0 + 1 :=
  mh_u_zero_accepts (fun t => if t = 0 then 1 else 0) 0 1 (by norm_num) (by norm_num)

/-- C3 counterexample: the code does not special-case a zero density at the
current state; dividing float zero by float zero yields NaN, and comparing
the uniform draw against NaN is always false.  So when pi(y) = 0 and
pi(x) = 0 the claimed ratio a = 0 is wrong: u = 0 satisfies u <= 0, yet the
acceptance test is false and the proposal with offset 1 is rejected, leaving
the state at 0 instead of moving to 1. -/
theorem mh_zero_zero_cex :
    mhAccept 0 0 0 = false ∧ mhStep (fun _ => 0) 0 1 0 = 0 := by
  constructor
  · norm_num [mhAccept]
  · norm_num [mhStep, mhAccept]

/-- C3 amended: the code has no special case for pi(x) = 0; the division
produces IEEE float infinity or NaN.  The observable behaviour is: when
pi(x) = 0 and pi(y) > 0 the ratio is +infinity, capped by min to 1, so the
move is accepted exactly when u <= 1 (hence always for a uniform draw in
[0,1]); when pi(x) = 0 and pi(y) is not positive the comparison with
NaN (or -infinity) is false and the move is always rejected, even for
u = 0 — not the behaviour that a ratio of a = 0 would give. -/
theorem mh_zero_density (pi : ℚ → ℚ) (x δ u : ℚ) (hx : pi x = 0) :
    (0 < pi (x + δ) → (mhAccept (pi x) (pi (x + δ)) u = true ↔ u ≤ 1)) ∧
    (pi (x + δ) ≤ 0 → mhAccept (pi x) (pi (x + δ)) u = false) := by
  constructor
  · intro hy
    simp [mhAccept, hx, hy]
  · intro hy
    have hny : ¬ 0 < pi (x + δ) := not_lt.mpr hy
    simp [mhAccept, hx, hny]

/-- Witness for the amended C3: density 0 at 0 and 1 elsewhere, with
u = 1/2 the escape move from the zero-density point 0 is accepted. -/
theorem mh_zero_density_witness :
    mhAccept ((fun t : ℚ => if t = 0 then 0 else 1) 0)
        ((fun t : ℚ => if t = 0 then 0 else 1) (0 + 1)) (1/2) = true ↔ (1/2 : ℚ) ≤ 1 :=
  (mh_zero_density (fun t : ℚ => if t = 0 then 0 else 1) 0 1 (1/2)
    (by norm_num)).1 (by norm_num)

/-- Any constant positive target density accepts every proposal whose uniform
draw is at most 1: the ratio is c/c = 1, so a = 1 and u <= 1 holds, and the
loop output is the running cumulative sum of the proposal offsets. -/
lemma mhLoop_const_pos (c : ℚ) (hc : 0 < c) :
    ∀ (pairs : List (ℚ × ℚ)) (x : ℚ), (∀ p ∈ pairs, p.2 ≤ 1) →
      mhLoop (fun _ => c) x pairs = cumsum x (pairs.map Prod.fst) := by
  intro pairs
  induction pairs with
  | nil => intro x _; rfl
  | cons p rest ih =>
    intro x hall
    obtain ⟨δ, u⟩ := p
    have hu : u ≤ 1 := hall (δ, u) (List.mem_cons_self _ _)
    have hne : c ≠ 0 := ne_of_gt hc
    have hmin : min (c / c) 1 = 1 := by rw [div_self hne]; simp
    have hacc : mhAccept c c u = true := by
      simp [mhAccept, hne, hmin, hu]
    have hstep : mhStep (fun _ => c) x δ u = x + δ := by
      simp [mhStep, hacc]
    simp only [mhLoop, hstep, List.map_cons, cumsum]
    exact congrArg _ (ih (x + δ) (fun q hq => hall q (List.mem_cons_of_mem _ hq)))

/-- C7: for a constant positive target density, every proposal is accepted
(the ratio is 1 at every step) and MH returns exactly the cumulative sums
x0 + d1, x0 + d1 + d2, ..., of the proposal offsets, for every sequence of
uniform draws bounded by 1. -/
theorem mh_const_density_cumsum (c x0 : ℚ) (δs us : ℕ → ℚ) (n : ℤ)
    (hc : 0 < c) (hu : ∀ i, i < n.toNat → us i ≤ 1) :
    MH x0 (fun _ => c) δs us n = cumsum x0 ((List.range n.toNat).map δs) := by
  unfold MH
  rw [mhLoop_const_pos c hc]
  · rw [List.map_map]
    rfl
  · intro p hp
    simp only [List.mem_map, List.mem_range] at hp
    obtain ⟨i, hi, rfl⟩ := hp
    exact hu i hi

/-- Witness for C7 at c = 1, x0 = 0, unit offsets, u = 1 draws, n = 2. -/
theorem mh_const_density_cumsum_witness :
    MH 0 (fun _ => 1) (fun _ => 1) (fun _ => 1) 2 =
      cumsum 0 ((List.range (Int.toNat 2)).map fun _ => (1:ℚ)) :=
  mh_const_density_cumsum 1 0 (fun _ => 1) (fun _ => 1) 2 (by norm_num)
    (fun i _ => le_refl 1)

/-- C9: MH is deterministic given its random draws: two runs from the same
initial state, target density and iteration count, whose proposal-offset and
uniform-draw streams agree on the n consumed indices, return identical
sequences. -/
theorem mh_deterministic (x0 : ℚ) (pi : ℚ → ℚ) (δs1 us1 δs2 us2 : ℕ → ℚ)
    (n : ℤ) (h : ∀ i, i < n.toNat → δs1 i = δs2 i ∧ us1 i = us2 i) :
    MH x0 pi δs1 us1 n = MH x0 pi δs2 us2 n := by
  unfold MH
  congr 1
  apply List.map_congr_left
  intro i hi
  rw [List.mem_range] at hi
  rw [(h i hi).1, (h i hi).2]

/-- Witness for C9 at n = 1, with two uniform streams that agree on the one
consumed index 0 but differ beyond it. -/
theorem mh_deterministic_witness :
    MH 0 (fun _ => 1) (fun _ => 0) (fun _ => 0) 1 =
      MH 0 (fun _ => 1) (fun _ => 0) (fun i => if i = 0 then 0 else 1) 1 :=
  mh_deterministic 0 (fun _ => 1) (fun _ => 0) (fun _ => 0) (fun _ => 0)
    (fun i => if i = 0 then 0 else 1) 1
    (fun i hi => ⟨rfl, by simp [Nat.lt_one_iff.mp hi]⟩)

/-- One fallible iteration either succeeds with some post-decision state or
fails with an error that the target density itself produced. -/
lemma mhStepE_cases {ε : Type} (pi : ℚ → Except ε ℚ) (x δ u : ℚ) :
    (∃ x1, mhStepE pi x δ u = Except.ok x1) ∨
    (∃ e, mhStepE pi x δ u = Except.error e ∧ ∃ z, pi z = Except.error e) := by
  unfold mhStepE
  cases hy : pi (x + δ) with
  | error e => exact Or.inr ⟨e, rfl, x + δ, hy⟩
  | ok py =>
    cases hx2 : pi x with
    | error e => exact Or.inr ⟨e, rfl, x, hx2⟩
    | ok px => exact Or.inl ⟨if mhAccept px py u then x + δ else x, rfl⟩

/-- The fallible loop either returns a complete list, one sample per draw, or
propagates an error produced by the target density; it never returns a
shorter list. -/
lemma mhLoopE_complete_or_error {ε : Type} (pi : ℚ → Except ε ℚ) :
    ∀ (pairs : List (ℚ × ℚ)) (x : ℚ),
      (∃ l, mhLoopE pi x pairs = Except.ok l ∧ l.length = pairs.length) ∨
      (∃ e, mhLoopE pi x pairs = Except.error e ∧ ∃ z, pi z = Except.error e) := by
  intro pairs
  induction pairs with
  | nil => intro x; exact Or.inl ⟨[], rfl, rfl⟩
  | cons p rest ih =>
    intro x
    obtain ⟨δ, u⟩ := p
    rcases mhStepE_cases pi x δ u with ⟨x1, hstep⟩ | ⟨e, hstep, hz⟩
    · rcases ih x1 with ⟨l, hl, hlen⟩ | ⟨e, hl, hz⟩
      · exact Or.inl ⟨x1 :: l, by simp [mhLoopE, hstep, hl], by simp [hlen]⟩
      · exact Or.inr ⟨e, by simp [mhLoopE, hstep, hl], hz⟩
    · exact Or.inr ⟨e, by simp [mhLoopE, hstep], hz⟩

/-- C5: with a fallible target density, any error raised while evaluating the
density propagates to the caller unchanged (the returned error is one the
density itself produced at some point), and the caller never observes a
partial output: every run of MHE returns either a complete sequence with one
element per requested iteration or an error, never a shorter sequence. -/
theorem mh_error_propagates {ε : Type} (x0 : ℚ) (pi : ℚ → Except ε ℚ)
    (δs us : ℕ → ℚ) (n : ℤ) :
    (∃ l, MHE x0 pi δs us n = Except.ok l ∧ l.length = n.toNat) ∨
    (∃ e, MHE x0 pi δs us n = Except.error e ∧ ∃ z, pi z = Except.error e) := by
  unfold MHE
  rcases mhLoopE_complete_or_error pi ((List.range n.toNat).map fun i => (δs i, us i)) x0 with
    ⟨l, hl, hlen⟩ | h
  · exact Or.inl ⟨l, hl, by simpa using hlen⟩
  · exact Or.inr h
